import Mathlib

open MeasureTheory

/-!
Verification development for the truck-loading optimizer repository.

The repository ships a front-end (static/js/app.js) and, per its README,
a Flask server (app.py) with a maximal-rectangles packing engine
(packing.py).  The engine sources are not part of the checked-out tree,
so the engine below is modelled from the specification; the front-end
functions (step, saveCustomType, getCustomTypes, displayResults) are
embedded directly from static/js/app.js.

Lengths and coordinates are modelled as rational numbers.
-/

namespace TruckOpt

/-- Truck floor, width along the x axis and length along the y axis.
Modelled from the spec: the Truck record of the missing packing engine
(packing.py), section 3 of the specification. -/
structure Truck where
  width : ℚ
  length : ℚ
deriving DecidableEq, Repr, Inhabited

/-- One entry of the requested collection: a box type with its dimensions,
stackability mode and requested count.
Modelled from the spec: the engine input shape of section 6 of the
specification (the /api/optimize payload handled by the missing app.py). -/
structure ReqEntry where
  boxTypeId : String
  width : ℚ
  length : ℚ
  stackable : Bool
  count : Int
deriving DecidableEq, Repr, Inhabited

/-- A single box instance expanded from a request count.
Modelled from the spec: BoxInstance of section 3 of the specification
(missing packing.py). -/
structure BoxInstance where
  typeId : String
  w : ℚ
  l : ℚ
  stackable : Bool
deriving DecidableEq, Repr, Inhabited

/-- An axis-aligned rectangle on the truck floor.
Modelled from the spec: FreeRectangle of section 3 of the specification
(missing packing.py). -/
structure Rect where
  x : ℚ
  y : ℚ
  w : ℚ
  h : ℚ
deriving DecidableEq, Repr, Inhabited

/-- A box placed on the floor or stacked on a floor box.
Modelled from the spec: PlacedBox of section 3 of the specification
(missing packing.py). -/
structure PlacedBox where
  typeId : String
  x : ℚ
  y : ℚ
  w : ℚ
  h : ℚ
  stackable : Bool
  rotated : Bool
  stacked : Bool
deriving DecidableEq, Repr, Inhabited

/-- The footprint rectangle of a placed box. -/
def PlacedBox.rect (p : PlacedBox) : Rect :=
  ⟨p.x, p.y, p.w, p.h⟩

/-- A box of extent (bw, bh) fits into the free rectangle r. -/
def fitsIn (r : Rect) (bw bh : ℚ) : Prop :=
  bw ≤ r.w ∧ bh ≤ r.h

instance (r : Rect) (bw bh : ℚ) : Decidable (fitsIn r bw bh) := by
  unfold fitsIn; infer_instance

/-- Two rectangles overlap on a region of positive area. -/
def rectsOverlap (a b : Rect) : Prop :=
  a.x < b.x + b.w ∧ b.x < a.x + a.w ∧ a.y < b.y + b.h ∧ b.y < a.y + a.h

instance (a b : Rect) : Decidable (rectsOverlap a b) := by
  unfold rectsOverlap; infer_instance

/-- Rectangle a is contained in rectangle b. -/
def containedIn (a b : Rect) : Prop :=
  b.x ≤ a.x ∧ b.y ≤ a.y ∧ a.x + a.w ≤ b.x + b.w ∧ a.y + a.h ≤ b.y + b.h

instance (a b : Rect) : Decidable (containedIn a b) := by
  unfold containedIn; infer_instance

/-- Rectangle r lies inside the truck floor. -/
def inTruck (t : Truck) (r : Rect) : Prop :=
  0 ≤ r.x ∧ 0 ≤ r.y ∧ r.x + r.w ≤ t.width ∧ r.y + r.h ≤ t.length

instance (t : Truck) (r : Rect) : Decidable (inTruck t r) := by
  unfold inTruck; infer_instance

/-- Splitting one free rectangle f around a committed placement p: if f does
not intersect p it survives unchanged, otherwise it is replaced by the up to
four maximal sub-rectangles of f strictly outside p (left, right, bottom and
top slices), degenerate slices discarded.
Modelled from the spec: the commit operation of the Free-Space Tracker,
section 4.1 of the specification (missing packing.py). -/
def splitRect (f p : Rect) : List Rect :=
  if rectsOverlap f p then
    (if f.x < p.x then [⟨f.x, f.y, p.x - f.x, f.h⟩] else []) ++
    (if p.x + p.w < f.x + f.w then [⟨p.x + p.w, f.y, f.x + f.w - (p.x + p.w), f.h⟩] else []) ++
    (if f.y < p.y then [⟨f.x, f.y, f.w, p.y - f.y⟩] else []) ++
    (if p.y + p.h < f.y + f.h then [⟨f.x, p.y + p.h, f.w, f.y + f.h - (p.y + p.h)⟩] else [])
  else [f]

/-- Containment pruning of the free-rectangle set: a rectangle is dropped
when it is contained in another tracked rectangle (for equal rectangles the
earlier copy is kept).
Modelled from the spec: the pairwise containment check of section 4.1 of the
specification (missing packing.py). -/
def pruneContained (l : List Rect) : List Rect :=
  (l.enum.filter fun p =>
    decide (∀ q ∈ l.enum, q.1 ≠ p.1 → containedIn p.2 q.2 →
      (containedIn q.2 p.2 ∧ p.1 < q.1))).map Prod.snd

/-- A candidate placement: a free rectangle together with the box extent
chosen for it (normal or rotated orientation).
Modelled from the spec: the candidate notion of sections 4.2 and 4.3 of the
specification (missing packing.py). -/
structure Candidate where
  rect : Rect
  bw : ℚ
  bh : ℚ
  rotated : Bool
deriving DecidableEq, Repr

/-- Bottom-left scoring order on candidates: smaller y first, then smaller x.
Modelled from the spec: the Placement Scorer policy of section 4.2 of the
specification (missing packing.py). -/
def betterCand (a b : Candidate) : Prop :=
  a.rect.y < b.rect.y ∨ (a.rect.y = b.rect.y ∧ a.rect.x < b.rect.x)

instance (a b : Candidate) : Decidable (betterCand a b) := by
  unfold betterCand; infer_instance

/-- All fitting candidates for a box of width bw and length bh over the
tracked free rectangles, both orientations tried for every rectangle.
Modelled from the spec: the candidates operation of section 4.1 combined
with the orientation search of section 4.2 (missing packing.py). -/
def candidatesFor (free : List Rect) (bw bh : ℚ) : List Candidate :=
  free.flatMap fun r =>
    (if fitsIn r bw bh then [⟨r, bw, bh, false⟩] else []) ++
    (if fitsIn r bh bw then [⟨r, bh, bw, true⟩] else [])

/-- Selection of the best-scoring candidate; the first minimal candidate in
enumeration order wins, which keeps the search deterministic.
Modelled from the spec: candidate ranking of sections 4.2 and 4.3
(missing packing.py). -/
def chooseBest (l : List Candidate) : Option Candidate :=
  l.foldl (fun acc c =>
    match acc with
    | none => some c
    | some a => if betterCand c a then some c else some a) none

/-- State of one floor-packing run: the tracked free rectangles and the
placed boxes so far.
Modelled from the spec: the Floor Packer state of section 4.3
(missing packing.py). -/
structure PackState where
  free : List Rect
  placed : List PlacedBox
deriving Repr

/-- Attempt to place one instance: choose the best fitting candidate, place
the box flush at the free rectangle origin, commit the placement to the
free-rectangle set and prune contained rectangles.  Returns none when no
candidate fits.
Modelled from the spec: one iteration of the Floor Packer loop, section 4.3
(missing packing.py). -/
def placeInstance (st : PackState) (b : BoxInstance) : Option PackState :=
  match chooseBest (candidatesFor st.free b.w b.l) with
  | none => none
  | some c =>
    let pb : PlacedBox :=
      ⟨b.typeId, c.rect.x, c.rect.y, c.bw, c.bh, b.stackable, c.rotated, false⟩
    some ⟨pruneContained (st.free.flatMap fun f => splitRect f pb.rect),
          st.placed ++ [pb]⟩

/-- One step of the floor-packing fold: a placeable instance updates the
state, any other instance is appended to the unplaced list. -/
def packStep (acc : PackState × List BoxInstance) (b : BoxInstance) :
    PackState × List BoxInstance :=
  match placeInstance acc.1 b with
  | none => (acc.1, acc.2 ++ [b])
  | some st => (st, acc.2)

/-- Floor packing of an ordered instance queue: instances that fit are
placed, the rest are appended to the unplaced list, with no backtracking.
Modelled from the spec: the Floor Packer contract of section 4.3
(missing packing.py). -/
def packFloor (t : Truck) (instances : List BoxInstance) :
    List PlacedBox × List BoxInstance :=
  let final := instances.foldl packStep (⟨[⟨0, 0, t.width, t.length⟩], []⟩, [])
  (final.1.placed, final.2)

/-- Footprint area of a box instance. -/
def instArea (b : BoxInstance) : ℚ :=
  b.w * b.l

/-- Longer side of a box instance. -/
def longSide (b : BoxInstance) : ℚ :=
  max b.w b.l

/-- Shorter side of a box instance. -/
def shortSide (b : BoxInstance) : ℚ :=
  min b.w b.l

/-- Stable sort placing instances with the larger key first. -/
def sortByDesc (key : BoxInstance → ℚ) (l : List BoxInstance) : List BoxInstance :=
  l.insertionSort fun a b => key b ≤ key a

/-- Grouping order: stable sort by the (typeId, stackable) key so that
instances of the same type and stackability are adjacent while input order
inside a group is preserved.
Modelled from the spec: the grouped-by-type ordering of section 4.4
(missing packing.py). -/
def groupKeyLe (a b : BoxInstance) : Prop :=
  a.typeId < b.typeId ∨ (a.typeId = b.typeId ∧ b.stackable ≤ a.stackable)

instance (a b : BoxInstance) : Decidable (groupKeyLe a b) := by
  unfold groupKeyLe; infer_instance

/-- Grouped-by-type ordering over the instance multiset. -/
def groupedOrder (l : List BoxInstance) : List BoxInstance :=
  l.insertionSort groupKeyLe

/-- Alternating interleave of two lists. -/
def interleave : List BoxInstance → List BoxInstance → List BoxInstance
  | [], ys => ys
  | x :: xs, [] => x :: xs
  | x :: xs, y :: ys => x :: y :: interleave xs ys

/-- Ordering that interleaves stackable and non-stackable instances of the
same type.
Modelled from the spec: the sixth ordering of section 4.4
(missing packing.py). -/
def interleaveOrder (l : List BoxInstance) : List BoxInstance :=
  ((l.map fun b => b.typeId).dedup).flatMap fun ty =>
    interleave (l.filter fun b => b.typeId == ty && b.stackable)
               (l.filter fun b => b.typeId == ty && !b.stackable)

/-- The six deterministic ordering strategies evaluated per request.
Modelled from the spec: the Strategy Selector orderings of section 4.4
(missing packing.py). -/
def strategies (l : List BoxInstance) : List (List BoxInstance) :=
  [ sortByDesc instArea l
  , sortByDesc longSide l
  , sortByDesc shortSide l
  , groupedOrder l
  , l
  , interleaveOrder l ]

/-- Sum of floor areas of a placed-box list, the utilization numerator. -/
def utilNumer (placed : List PlacedBox) : ℚ :=
  (placed.map fun p => p.w * p.h).sum

/-- Selection of the winning floor result: highest floor utilization first,
ties broken by number of boxes placed, earlier strategy kept on full ties.
Modelled from the spec: the Strategy Selector comparison of section 4.4
(missing packing.py). -/
def selectBest (results : List (List PlacedBox × List BoxInstance)) :
    List PlacedBox × List BoxInstance :=
  match results with
  | [] => ([], [])
  | r :: rs =>
    rs.foldl (fun best q =>
      if utilNumer best.1 < utilNumer q.1 ∨
         (utilNumer q.1 = utilNumer best.1 ∧ best.1.length < q.1.length)
      then q else best) r

/-- Stacking loop over the unplaced instances: each instance takes the first
still-eligible same-type target, the target is consumed, and instances with
no matching target stay unplaced.
Modelled from the spec: the Stacking Packer loop of section 4.5
(missing packing.py). -/
def stackLoop : List PlacedBox → List BoxInstance → List PlacedBox →
    List BoxInstance → List PlacedBox × List BoxInstance
  | _, [], sAcc, uAcc => (sAcc, uAcc)
  | targets, b :: rest, sAcc, uAcc =>
    match targets.find? (fun t => t.typeId == b.typeId) with
    | none => stackLoop targets rest sAcc (uAcc ++ [b])
    | some t =>
      let sb : PlacedBox :=
        ⟨b.typeId, t.x, t.y, t.w, t.h, b.stackable, t.rotated, true⟩
      stackLoop (targets.erase t) rest (sAcc ++ [sb]) uAcc

/-- Stacking phase: eligible targets are the stackable first-layer boxes,
each serving at most one stacked box.
Modelled from the spec: the Stacking Packer contract of section 4.5
(missing packing.py). -/
def stackPhase (placed : List PlacedBox) (unplaced : List BoxInstance) :
    List PlacedBox × List BoxInstance :=
  stackLoop (placed.filter fun p => p.stackable && !p.stacked) unplaced [] []

/-- Summary statistics of one optimization response.
Modelled from the spec: the stats output shape of section 6
(missing packing.py). -/
structure PackStats where
  totalPlaced : Nat
  floorCount : Nat
  stackedCount : Nat
  notPlaced : Nat
  totalRequested : Nat
  utilizationPercent : ℚ
deriving DecidableEq, Repr, Inhabited

/-- Full engine output: placement list plus statistics.
Modelled from the spec: the engine output of section 6 (missing packing.py). -/
structure PackOutput where
  placed : List PlacedBox
  stats : PackStats
deriving DecidableEq, Repr, Inhabited

/-- Expansion of one request entry into its box instances. -/
def expand (r : ReqEntry) : List BoxInstance :=
  List.replicate r.count.toNat ⟨r.boxTypeId, r.width, r.length, r.stackable⟩

/-- A box instance the engine will actually try to pack: positive dimensions
and fitting the truck in at least one orientation.  Instances failing this
are reported directly as unplaced.
Modelled from the spec: the InvalidBoxDimensions and OversizedBox handling
of sections 6 and 7 (missing packing.py). -/
def instValid (t : Truck) (b : BoxInstance) : Prop :=
  0 < b.w ∧ 0 < b.l ∧
    ((b.w ≤ t.width ∧ b.l ≤ t.length) ∨ (b.l ≤ t.width ∧ b.w ≤ t.length))

instance (t : Truck) (b : BoxInstance) : Decidable (instValid t b) := by
  unfold instValid; infer_instance

/-- Rounding to one decimal place, the documented precision of the reported
utilization percentage.
Modelled from the spec: the fixed documented rounding of section 4.6
(missing packing.py). -/
def roundTo1 (q : ℚ) : ℚ :=
  (round (q * 10) : ℤ) / 10

/-- The instances of a request that the engine tries to pack. -/
def validInstances (t : Truck) (reqs : List ReqEntry) : List BoxInstance :=
  (reqs.flatMap expand).filter fun b => decide (instValid t b)

/-- The instances of a request reported directly as unplaced. -/
def invalidInstances (t : Truck) (reqs : List ReqEntry) : List BoxInstance :=
  (reqs.flatMap expand).filter fun b => ! decide (instValid t b)

/-- The winning floor layout over the six strategy runs. -/
def bestFloor (t : Truck) (reqs : List ReqEntry) :
    List PlacedBox × List BoxInstance :=
  selectBest ((strategies (validInstances t reqs)).map fun ord => packFloor t ord)

/-- The stacking-phase outcome on the winning floor layout. -/
def stackedResult (t : Truck) (reqs : List ReqEntry) :
    List PlacedBox × List BoxInstance :=
  stackPhase (bestFloor t reqs).1 (bestFloor t reqs).2

/-- The successful response of the engine: winning floor boxes followed by
the stacked boxes, plus the aggregated statistics.
Modelled from the spec: the Result Aggregator of section 4.6
(missing packing.py). -/
def okOutput (t : Truck) (reqs : List ReqEntry) : PackOutput :=
  ⟨(bestFloor t reqs).1 ++ (stackedResult t reqs).1,
    { totalPlaced := (bestFloor t reqs).1.length + (stackedResult t reqs).1.length
      floorCount := (bestFloor t reqs).1.length
      stackedCount := (stackedResult t reqs).1.length
      notPlaced := (stackedResult t reqs).2.length + (invalidInstances t reqs).length
      totalRequested := (reqs.flatMap expand).length
      utilizationPercent :=
        roundTo1 (100 * utilNumer (bestFloor t reqs).1 / (t.width * t.length)) }⟩

/-- The packing engine: validates the truck and the requested counts, expands
and screens the instances, evaluates the six strategies, keeps the best floor
layout, stacks the remaining instances and aggregates statistics.
Modelled from the spec: the end-to-end engine of sections 4 to 7
(missing packing.py and the /api/optimize handler of app.py). -/
def optimize (t : Truck) (reqs : List ReqEntry) : Except String PackOutput :=
  if 0 < t.width ∧ 0 < t.length then
    if ∀ r ∈ reqs, 0 ≤ r.count then .ok (okOutput t reqs)
    else .error "negative count"
  else .error "invalid truck dimensions"

end TruckOpt

/-- A concrete truck used by the engine witnesses: the 2.4m by 13.2m truck
of the README. -/
def truckW : TruckOpt.Truck := ⟨12/5, 66/5⟩

/-- A concrete request used by the engine witnesses: two american stackable
boxes and one european non-stackable box. -/
def reqsW : List TruckOpt.ReqEntry :=
  [⟨"american", 1, 6/5, true, 2⟩, ⟨"european", 6/5, 4/5, false, 1⟩]

/-- The engine output on the witness request. -/
def outW : TruckOpt.PackOutput := TruckOpt.okOutput truckW reqsW

namespace AppJs

/-- Membership of a character in the whitespace class skipped by the
JavaScript parseInt builtin (ASCII part). -/
def isJsSpace (c : Char) : Bool :=
  c == ' ' || c == '\t' || c == '\n' || c == '\r' || c == '\x0b' || c == '\x0c'

/-- Decimal digit test. -/
def isDecDigit (c : Char) : Bool :=
  decide ('0' ≤ c ∧ c ≤ '9')

/-- Hexadecimal digit test. -/
def isHexDigit (c : Char) : Bool :=
  isDecDigit c || decide ('a' ≤ c ∧ c ≤ 'f') || decide ('A' ≤ c ∧ c ≤ 'F')

/-- Numeric value of a hexadecimal digit character. -/
def hexVal (c : Char) : Nat :=
  if isDecDigit c then c.toNat - '0'.toNat
  else if decide ('a' ≤ c ∧ c ≤ 'f') then c.toNat - 'a'.toNat + 10
  else c.toNat - 'A'.toNat + 10

/-- Horner accumulation of a digit list in the given radix. -/
def digitsToNat (radix : Nat) : List Char → Nat → Nat
  | [], acc => acc
  | c :: cs, acc => digitsToNat radix cs (acc * radix + hexVal c)

/-- Parse the longest digit prefix in the given radix; none when the prefix
is empty, matching the NaN result of parseInt. -/
def parseNatPrefix (radix : Nat) (isDig : Char → Bool) (cs : List Char) : Option Nat :=
  let ds := cs.takeWhile isDig
  if ds.isEmpty then none else some (digitsToNat radix ds 0)

/-- Unsigned part of parseInt: a 0x or 0X prefix switches to radix 16,
otherwise the decimal digit prefix is parsed. -/
def parseUnsigned (cs : List Char) : Option Nat :=
  match cs with
  | '0' :: x :: rest =>
    if x == 'x' || x == 'X' then parseNatPrefix 16 isHexDigit rest
    else parseNatPrefix 10 isDecDigit ('0' :: x :: rest)
  | _ => parseNatPrefix 10 isDecDigit cs

/-- Model of the JavaScript parseInt builtin with no radix argument, on the
exact-integer fragment: leading whitespace is skipped, an optional sign is
consumed, and the longest digit prefix is parsed; none models NaN. -/
def jsParseInt (s : String) : Option Int :=
  match s.data.dropWhile isJsSpace with
  | '-' :: rest => (parseUnsigned rest).map fun n => -(n : Int)
  | '+' :: rest => (parseUnsigned rest).map fun n => (n : Int)
  | cs => (parseUnsigned cs).map fun n => (n : Int)

/-- Embedding of function step of static/js/app.js (lines 125-130 and
938-943): the stepper reads the input value, replaces a NaN parse (and an
explicit 0, on which the JavaScript or-operator acts as the identity) by 0,
adds delta and clamps at zero before writing back. -/
def step (v : String) (delta : Int) : Int :=
  max 0 ((jsParseInt v).getD 0 + delta)

/-- A caller-defined custom box type as persisted by app.js. -/
structure CustomType where
  id : String
  name : String
  width : ℚ
  length : ℚ
deriving DecidableEq, Repr, Inhabited

/-- Rounding to two decimal places, the Math.round(x*100)/100 of app.js;
the Mathlib round agrees with the JavaScript Math.round on halves. -/
def round2 (q : ℚ) : ℚ :=
  (round (q * 100) : ℤ) / 100

/-- Embedding of function saveCustomType of static/js/app.js (lines 46-65).
The two dimension fields are modelled by their parseFloat results, none
standing for NaN; the JavaScript test (!width || width <= 0 || width > 2.4)
rejects exactly none, non-positive and over-limit values.  On success the
new type is appended with both dimensions rounded to two decimals. -/
def saveCustomType (now : Nat) (nameRaw : String) (widthParsed lengthParsed : Option ℚ)
    (types : List CustomType) : List CustomType :=
  if nameRaw.trim = "" then types
  else
    match widthParsed with
    | none => types
    | some w =>
      if w ≤ 0 ∨ (12/5 : ℚ) < w then types
      else
        match lengthParsed with
        | none => types
        | some l =>
          if l ≤ 0 ∨ (66/5 : ℚ) < l then types
          else types ++ [⟨"custom_" ++ toString now, nameRaw.trim, round2 w, round2 l⟩]

/-- The JavaScript or-default idiom (s || dflt) on a nullable string: both a
missing value and the empty string fall back to the default. -/
def jsOrDefault (v : Option String) (dflt : String) : String :=
  match v with
  | none => dflt
  | some s => if s = "" then dflt else s

/-- Embedding of function getCustomTypes of static/js/app.js (lines 14-18):
JSON.parse is modelled as an arbitrary fallible parser and the JavaScript
try-catch as the Except match; every parse failure is converted into the
empty array, so the caller never sees an exception. -/
def getCustomTypes {α : Type} (parse : String → Except String α) (emptyArr : α)
    (store : Option String) : Except String α :=
  match parse (jsOrDefault store "[]") with
  | .ok v => .ok v
  | .error _ => .ok emptyArr

/-- One box of the placed list of the /api/optimize response, with the
fields read by displayResults. -/
structure RespBox where
  type : String
  stackable : Bool
  stacked : Bool
deriving DecidableEq, Repr

/-- One custom box entry of the submitted payload. -/
structure CustomBoxReq where
  id : String
  name : String
  width : ℚ
  length : ℚ
  stackable : Int
  non_stackable : Int
deriving DecidableEq, Repr

/-- The payload remembered in lastPayload by app.js. -/
structure Payload where
  american_stackable : Int
  american_non_stackable : Int
  european_stackable : Int
  european_non_stackable : Int
  custom_boxes : Option (List CustomBoxReq)
deriving DecidableEq, Repr

/-- The (lastPayload?.field || 0) read of a built-in count. -/
def payloadCount (p : Option Payload) (f : Payload → Int) : Int :=
  match p with
  | none => 0
  | some pl => f pl

/-- The (lastPayload?.custom_boxes || []) read. -/
def payloadCustomBoxes (p : Option Payload) : List CustomBoxReq :=
  match p with
  | none => []
  | some pl => pl.custom_boxes.getD []

/-- Number of placed boxes of one type and stackability, the
data.placed.filter(...).length counts of displayResults. -/
def placedCountJS (placed : List RespBox) (ty : String) (st : Bool) : Nat :=
  (placed.filter fun b => b.type == ty && b.stackable == st).length

/-- One card of the unplaced breakdown built by displayResults. -/
structure BreakdownItem where
  type : String
  stackable : Bool
  label : String
  count : Int
deriving DecidableEq, Repr

/-- Embedding of the built-in part of the unplaced breakdown of
displayResults (static/js/app.js lines 248-259 and 1014-1025). -/
def builtinBreakdown (lastPayload : Option Payload) (placed : List RespBox) :
    List BreakdownItem :=
  [ ⟨"american", true, "American Stackable",
      max 0 (payloadCount lastPayload (fun p => p.american_stackable) -
        (placedCountJS placed "american" true : Int))⟩
  , ⟨"american", false, "American Non-stackable",
      max 0 (payloadCount lastPayload (fun p => p.american_non_stackable) -
        (placedCountJS placed "american" false : Int))⟩
  , ⟨"european", true, "European Stackable",
      max 0 (payloadCount lastPayload (fun p => p.european_stackable) -
        (placedCountJS placed "european" true : Int))⟩
  , ⟨"european", false, "European Non-stackable",
      max 0 (payloadCount lastPayload (fun p => p.european_non_stackable) -
        (placedCountJS placed "european" false : Int))⟩ ]

/-- The requested count read for one custom type and stackability:
(payload.custom_boxes || []).find(b => b.id === ct.id)?.field || 0. -/
def customRequested (lastPayload : Option Payload) (i : String) (st : Bool) : Int :=
  match (payloadCustomBoxes lastPayload).find? (fun b => b.id == i) with
  | some b => if st then b.stackable else b.non_stackable
  | none => 0

/-- Embedding of the custom-type part of the unplaced breakdown of
displayResults (static/js/app.js lines 261-272). -/
def customBreakdown (lastPayload : Option Payload) (customTypes : List CustomType)
    (placed : List RespBox) : List BreakdownItem :=
  customTypes.flatMap fun ct =>
    [ ⟨ct.id, true, ct.name ++ " Stackable",
        max 0 (customRequested lastPayload ct.id true -
          (placedCountJS placed ct.id true : Int))⟩
    , ⟨ct.id, false, ct.name ++ " Non-stackable",
        max 0 (customRequested lastPayload ct.id false -
          (placedCountJS placed ct.id false : Int))⟩ ]

/-- The full unplaced breakdown list built by displayResults. -/
def displayBreakdown (lastPayload : Option Payload) (customTypes : List CustomType)
    (placed : List RespBox) : List BreakdownItem :=
  builtinBreakdown lastPayload placed ++ customBreakdown lastPayload customTypes placed

/-- The requested count that displayResults pairs with one (type, stackable)
combination: payload fields for the built-in types, the custom_boxes lookup
for any other type identifier. -/
def requestedFor (lastPayload : Option Payload) (ty : String) (st : Bool) : Int :=
  if ty = "american" then
    (if st then payloadCount lastPayload (fun p => p.american_stackable)
     else payloadCount lastPayload (fun p => p.american_non_stackable))
  else if ty = "european" then
    (if st then payloadCount lastPayload (fun p => p.european_stackable)
     else payloadCount lastPayload (fun p => p.european_non_stackable))
  else customRequested lastPayload ty st

end AppJs

/-- A concrete parser used to witness the getCustomTypes theorem. -/
def parseW : String → Except String (List Nat) := fun s =>
  if s = "[]" then .ok [] else if s = "[1]" then .ok [1] else .error "bad"

/-- A concrete payload used to witness the breakdown theorem. -/
def payloadW : AppJs.Payload := ⟨3, 0, 2, 1, some [⟨"custom_9", "crate", 1, 1, 4, 0⟩]⟩

/-- A concrete custom type list used to witness the breakdown theorem. -/
def ctsW : List AppJs.CustomType := [⟨"custom_9", "crate", 1, 1⟩]

/-- A concrete placed list used to witness the breakdown theorem. -/
def placedW : List AppJs.RespBox := [⟨"american", true, false⟩]

/-- Invariant of one floor-packing run: free rectangles stay inside the
truck and clear of every placed box, placed boxes stay inside the truck,
pairwise non-overlapping, with positive extents, and on the first layer. -/
structure TruckOpt.PackInv (t : TruckOpt.Truck) (st : TruckOpt.PackState) : Prop where
  free_in : ∀ r ∈ st.free, TruckOpt.inTruck t r
  free_disj : ∀ r ∈ st.free, ∀ p ∈ st.placed, ¬ TruckOpt.rectsOverlap r p.rect
  placed_in : ∀ p ∈ st.placed, TruckOpt.inTruck t p.rect
  placed_disj : st.placed.Pairwise fun a b => ¬ TruckOpt.rectsOverlap a.rect b.rect
  placed_pos : ∀ p ∈ st.placed, 0 < p.w ∧ 0 < p.h
  placed_floor : ∀ p ∈ st.placed, p.stacked = false

/-- A one-box-wide truck used by the stacking witness. -/
def truckS : TruckOpt.Truck := ⟨1, 6/5⟩

/-- A request of two american stackable boxes, one of which must stack. -/
def reqsS : List TruckOpt.ReqEntry := [⟨"american", 1, 6/5, true, 2⟩]

/-- The engine output on the stacking witness request. -/
def outS : TruckOpt.PackOutput := TruckOpt.okOutput truckS reqsS

namespace TruckOpt

def rectSet (r : Rect) : Set (ℝ × ℝ) :=
  Set.Ico (r.x : ℝ) ((r.x : ℝ) + (r.w : ℝ)) ×ˢ Set.Ico (r.y : ℝ) ((r.y : ℝ) + (r.h : ℝ))

def truckSet (t : Truck) : Set (ℝ × ℝ) :=
  Set.Ico (0 : ℝ) (t.width : ℝ) ×ˢ Set.Ico (0 : ℝ) (t.length : ℝ)

end TruckOpt

namespace TruckOpt

theorem placeInstance_placed {st st2 : PackState} {b : BoxInstance}
    (h : placeInstance st b = some st2) :
    ∃ pb, st2.placed = st.placed ++ [pb] := by
  unfold placeInstance at h
  cases hc : chooseBest (candidatesFor st.free b.w b.l) with
  | none => rw [hc] at h; cases h
  | some c =>
    rw [hc] at h
    injection h with h2
    exact ⟨_, congrArg PackState.placed h2.symm⟩

theorem foldl_packStep_len :
    ∀ (l : List BoxInstance) (acc : PackState × List BoxInstance),
      (l.foldl packStep acc).1.placed.length + (l.foldl packStep acc).2.length
        = acc.1.placed.length + acc.2.length + l.length := by
  intro l
  induction l with
  | nil => intro acc; simp
  | cons b rest ih =>
    intro acc
    rw [List.foldl_cons, ih]
    unfold packStep
    cases h : placeInstance acc.1 b with
    | none => simp; omega
    | some st =>
      obtain ⟨pb, hpb⟩ := placeInstance_placed h
      simp [hpb]
      omega

theorem packFloor_conservation (t : Truck) (l : List BoxInstance) :
    (packFloor t l).1.length + (packFloor t l).2.length = l.length := by
  unfold packFloor
  simpa using foldl_packStep_len l (⟨[⟨0, 0, t.width, t.length⟩], []⟩, [])

theorem interleave_perm :
    ∀ (xs ys : List BoxInstance), List.Perm (interleave xs ys) (xs ++ ys) := by
  intro xs
  induction xs with
  | nil => intro ys; simp [interleave]
  | cons x xs ih =>
    intro ys
    cases ys with
    | nil => simp [interleave]
    | cons y ys =>
      show List.Perm (x :: y :: interleave xs ys) (x :: xs ++ y :: ys)
      refine List.Perm.trans (List.Perm.cons x (List.Perm.cons y (ih ys))) ?_
      exact List.Perm.cons x List.perm_middle.symm

theorem flatMap_filter_perm {α K : Type} [DecidableEq K] (f : α → K) :
    ∀ (keys : List K), keys.Nodup → ∀ (l : List α), (∀ a ∈ l, f a ∈ keys) →
      List.Perm (keys.flatMap fun k => l.filter fun a => f a == k) l := by
  intro keys
  induction keys with
  | nil =>
    intro _ l hcov
    have : l = [] := List.eq_nil_iff_forall_not_mem.mpr fun a ha => by
      simpa using hcov a ha
    simp [this]
  | cons k ks ih =>
    intro hnd l hcov
    have hknotin : k ∉ ks := (List.nodup_cons.mp hnd).1
    have hndks : ks.Nodup := (List.nodup_cons.mp hnd).2
    rw [List.flatMap_cons]
    have hcongr : ∀ k2 ∈ ks,
        l.filter (fun a => f a == k2) =
          (l.filter fun a => !(f a == k)).filter (fun a => f a == k2) := by
      intro k2 hk2
      rw [List.filter_filter]
      refine (List.filter_congr ?_).symm
      intro a _
      by_cases hfa : f a = k2
      · have hk2k : ¬ k2 = k := fun hh => hknotin (hh ▸ hk2)
        simp [hfa, hk2k]
      · simp [hfa]
    have hmap : (ks.flatMap fun k2 => l.filter fun a => f a == k2) =
        ks.flatMap fun k2 => (l.filter fun a => !(f a == k)).filter fun a => f a == k2 := by
      rw [List.flatMap, List.flatMap]
      exact congrArg List.flatten (List.map_congr_left hcongr)
    have hcov2 : ∀ a ∈ (l.filter fun a => !(f a == k)), f a ∈ ks := by
      intro a ha
      obtain ⟨hal, hne⟩ := List.mem_filter.mp ha
      have := hcov a hal
      simp only [List.mem_cons] at this
      rcases this with hh | hh
      · exfalso; simp [hh] at hne
      · exact hh
    have hperm2 := ih hndks (l.filter fun a => !(f a == k)) hcov2
    refine List.Perm.trans ?_ (List.filter_append_perm (fun a => f a == k) l)
    rw [hmap]
    exact List.Perm.append_left _ hperm2

theorem interleaveOrder_perm (l : List BoxInstance) :
    List.Perm (interleaveOrder l) l := by
  unfold interleaveOrder
  have h1 : ∀ ty, List.Perm
      (interleave (l.filter fun b => b.typeId == ty && b.stackable)
                  (l.filter fun b => b.typeId == ty && !b.stackable))
      (l.filter fun b => b.typeId == ty) := by
    intro ty
    refine List.Perm.trans (interleave_perm _ _) ?_
    have e1 : (l.filter fun b => b.typeId == ty && b.stackable)
        = (l.filter fun b => b.typeId == ty).filter fun b => b.stackable := by
      rw [List.filter_filter]
      exact List.filter_congr fun b _ => Bool.and_comm _ _
    have e2 : (l.filter fun b => b.typeId == ty && !b.stackable)
        = (l.filter fun b => b.typeId == ty).filter fun b => !b.stackable := by
      rw [List.filter_filter]
      exact List.filter_congr fun b _ => Bool.and_comm _ _
    rw [e1, e2]
    exact List.filter_append_perm _ _
  refine List.Perm.trans (List.Perm.flatMap_left _ fun ty _ => h1 ty) ?_
  exact flatMap_filter_perm (fun b : BoxInstance => b.typeId)
    ((l.map fun b => b.typeId).dedup) (List.nodup_dedup _)
    l (fun a ha => List.mem_dedup.mpr (List.mem_map_of_mem _ ha))

theorem strategies_length (l : List BoxInstance) :
    ∀ s ∈ strategies l, s.length = l.length := by
  intro s hs
  simp only [strategies, List.mem_cons, List.not_mem_nil, or_false] at hs
  rcases hs with rfl | rfl | rfl | rfl | rfl | rfl
  · exact (List.perm_insertionSort _ _).length_eq
  · exact (List.perm_insertionSort _ _).length_eq
  · exact (List.perm_insertionSort _ _).length_eq
  · exact (List.perm_insertionSort _ _).length_eq
  · rfl
  · exact (interleaveOrder_perm l).length_eq

theorem selectBest_mem (r : List PlacedBox × List BoxInstance)
    (rs : List (List PlacedBox × List BoxInstance)) :
    selectBest (r :: rs) ∈ r :: rs := by
  show List.foldl _ r rs ∈ r :: rs
  induction rs generalizing r with
  | nil => simp
  | cons q rs ih =>
    rw [List.foldl_cons]
    by_cases hc : utilNumer r.1 < utilNumer q.1 ∨
        (utilNumer q.1 = utilNumer r.1 ∧ r.1.length < q.1.length)
    · rw [if_pos hc]
      rcases List.mem_cons.mp (ih q) with h | h
      · rw [h]; exact List.mem_cons_of_mem _ (List.mem_cons_self _ _)
      · exact List.mem_cons_of_mem _ (List.mem_cons_of_mem _ h)
    · rw [if_neg hc]
      rcases List.mem_cons.mp (ih r) with h | h
      · rw [h]; exact List.mem_cons_self _ _
      · exact List.mem_cons_of_mem _ (List.mem_cons_of_mem _ h)

theorem stackLoop_len :
    ∀ (insts : List BoxInstance) (targets : List PlacedBox)
      (sAcc : List PlacedBox) (uAcc : List BoxInstance),
      (stackLoop targets insts sAcc uAcc).1.length +
        (stackLoop targets insts sAcc uAcc).2.length
        = sAcc.length + uAcc.length + insts.length := by
  intro insts
  induction insts with
  | nil => intro targets sAcc uAcc; simp [stackLoop]
  | cons b rest ih =>
    intro targets sAcc uAcc
    unfold stackLoop
    cases h : targets.find? (fun t => t.typeId == b.typeId) with
    | none => rw [ih]; simp; omega
    | some t => rw [ih]; simp; omega

theorem optimize_ok {t : Truck} {reqs : List ReqEntry} {out : PackOutput}
    (h : optimize t reqs = .ok out) : out = okOutput t reqs := by
  unfold optimize at h
  by_cases h1 : 0 < t.width ∧ 0 < t.length
  · rw [if_pos h1] at h
    by_cases h2 : ∀ r ∈ reqs, 0 ≤ r.count
    · rw [if_pos h2] at h
      exact (Except.ok.inj h).symm
    · rw [if_neg h2] at h
      cases h
  · rw [if_neg h1] at h
    cases h

theorem bestFloor_mem (t : Truck) (reqs : List ReqEntry) :
    ∃ ord ∈ strategies (validInstances t reqs),
      bestFloor t reqs = packFloor t ord := by
  have hmem : bestFloor t reqs ∈
      (strategies (validInstances t reqs)).map fun ord => packFloor t ord := by
    unfold bestFloor strategies
    simp only [List.map_cons, List.map_nil]
    exact selectBest_mem _ _
  obtain ⟨ord, hord, hbest⟩ := List.mem_map.mp hmem
  exact ⟨ord, hord, hbest.symm⟩

theorem bestFloor_conservation (t : Truck) (reqs : List ReqEntry) :
    (bestFloor t reqs).1.length + (bestFloor t reqs).2.length
      = (validInstances t reqs).length := by
  obtain ⟨ord, hord, hbest⟩ := bestFloor_mem t reqs
  rw [hbest]
  rw [packFloor_conservation t ord]
  exact strategies_length _ ord hord

end TruckOpt

open TruckOpt in
/-- C1: for every accepted request, the reported statistics satisfy
totalPlaced + notPlaced = totalRequested, and the placed total splits
exactly into the floor count plus the stacked count, so every requested
instance is accounted for in exactly one of placed-floor, placed-stacked
and unplaced. -/
theorem optimize_conservation (t : Truck) (reqs : List ReqEntry) (out : PackOutput)
    (h : optimize t reqs = .ok out) :
    out.stats.totalPlaced + out.stats.notPlaced = out.stats.totalRequested ∧
      out.stats.totalPlaced = out.stats.floorCount + out.stats.stackedCount := by
  obtain rfl := optimize_ok h
  have hbl := bestFloor_conservation t reqs
  have hsl : (stackedResult t reqs).1.length + (stackedResult t reqs).2.length
      = (bestFloor t reqs).2.length := by
    unfold stackedResult stackPhase
    simpa using stackLoop_len (bestFloor t reqs).2 _ [] []
  have hv : (validInstances t reqs).length + (invalidInstances t reqs).length
      = (reqs.flatMap expand).length := by
    unfold validInstances invalidInstances
    have h2 := (List.filter_append_perm
      (fun b => decide (instValid t b)) (reqs.flatMap expand)).length_eq
    simpa using h2
  simp only [okOutput]
  constructor
  · omega
  · trivial

/-- Witness for the conservation theorem at the concrete witness request. -/
theorem optimize_conservation_witness :
    outW.stats.totalPlaced + outW.stats.notPlaced = outW.stats.totalRequested ∧
      outW.stats.totalPlaced = outW.stats.floorCount + outW.stats.stackedCount :=
  optimize_conservation truckW reqsW outW (by with_unfolding_all rfl)

/-- C7: a request containing a negative count is rejected with an error; the
engine never returns a successful output for it, so no placement computation
treats the negative count as zero. -/
theorem optimize_rejects_negative (t : TruckOpt.Truck) (reqs : List TruckOpt.ReqEntry)
    (hneg : ∃ r ∈ reqs, r.count < 0) :
    (∃ msg, TruckOpt.optimize t reqs = .error msg) ∧
      ∀ out, TruckOpt.optimize t reqs ≠ .ok out := by
  have hc : ¬ ∀ r ∈ reqs, 0 ≤ r.count := by
    obtain ⟨r, hr, hlt⟩ := hneg
    intro hall
    exact absurd (hall r hr) (by omega)
  unfold TruckOpt.optimize
  by_cases h1 : 0 < t.width ∧ 0 < t.length
  · rw [if_pos h1, if_neg hc]
    exact ⟨⟨_, rfl⟩, fun out hh => by cases hh⟩
  · rw [if_neg h1]
    exact ⟨⟨_, rfl⟩, fun out hh => by cases hh⟩

/-- Witness for the negative-count rejection theorem at a concrete request
with count -2. -/
theorem optimize_rejects_negative_witness :
    (∃ msg, TruckOpt.optimize ⟨12/5, 66/5⟩ [⟨"american", 1, 6/5, true, -2⟩] =
      .error msg) ∧
      ∀ out, TruckOpt.optimize ⟨12/5, 66/5⟩ [⟨"american", 1, 6/5, true, -2⟩] ≠
        .ok out :=
  optimize_rejects_negative _ _
    ⟨⟨"american", 1, 6/5, true, -2⟩, List.mem_singleton_self _, by decide⟩

/-- C8: the engine is a pure function of the truck and the request, so two
invocations on identical inputs return identical outputs; the model has no
source of randomness or scheduling. -/
theorem optimize_deterministic (t1 t2 : TruckOpt.Truck)
    (r1 r2 : List TruckOpt.ReqEntry) (ht : t1 = t2) (hr : r1 = r2) :
    TruckOpt.optimize t1 r1 = TruckOpt.optimize t2 r2 := by
  subst ht
  subst hr
  rfl

/-- Witness for the determinism theorem at the concrete witness request. -/
theorem optimize_deterministic_witness :
    TruckOpt.optimize truckW reqsW = TruckOpt.optimize truckW reqsW :=
  optimize_deterministic truckW truckW reqsW reqsW rfl rfl

namespace AppJs

theorem round_q_mono {a b : ℚ} (h : a ≤ b) : round a ≤ round b := by
  rw [round_eq, round_eq]
  exact Int.floor_mono (by linarith)

theorem round2_nonneg {q : ℚ} (h : 0 ≤ q) : 0 ≤ round2 q := by
  unfold round2
  have h0 : (0 : ℤ) ≤ round (q * 100) := by
    have := round_q_mono (a := 0) (b := q * 100) (by nlinarith)
    simpa using this
  positivity

theorem round2_le_of_le {q c : ℚ} {n : ℤ} (hn : (n : ℚ) = c * 100) (h : q ≤ c) :
    round2 q ≤ c := by
  unfold round2
  have h1 : round (q * 100) ≤ round (c * 100) := round_q_mono (by nlinarith)
  have h2 : round (c * 100) = n := by
    rw [← hn, round_intCast]
  rw [h2] at h1
  have h3 : ((round (q * 100) : ℤ) : ℚ) ≤ (n : ℚ) := by exact_mod_cast h1
  rw [hn] at h3
  linarith

end AppJs

/-- C10: for every input value string v and every integer delta, the stepper
writes max(0, n + delta) where n is the parseInt result when it is a number
and 0 otherwise, and the written count is never negative. -/
theorem step_writes_clamped (v : String) (delta : Int) :
    AppJs.step v delta = max 0 ((AppJs.jsParseInt v).getD 0 + delta) ∧
      0 ≤ AppJs.step v delta :=
  ⟨rfl, le_max_left 0 _⟩

/-- C9: getCustomTypes is total over every localStorage state and parser
behaviour: it never surfaces an error, it returns the parsed value whenever
the stored string (or the [] fallback when the entry is absent or empty)
parses, and it returns the empty array whenever the parse fails. -/
theorem getCustomTypes_total {α : Type} (parse : String → Except String α)
    (emptyArr : α) (store : Option String) :
    (∃ v, AppJs.getCustomTypes parse emptyArr store = .ok v) ∧
    (∀ e, AppJs.getCustomTypes parse emptyArr store ≠ .error e) ∧
    (∀ v, parse (AppJs.jsOrDefault store "[]") = .ok v →
      AppJs.getCustomTypes parse emptyArr store = .ok v) ∧
    (∀ e, parse (AppJs.jsOrDefault store "[]") = .error e →
      AppJs.getCustomTypes parse emptyArr store = .ok emptyArr) := by
  unfold AppJs.getCustomTypes
  cases h : parse (AppJs.jsOrDefault store "[]") with
  | error e => simp [h]
  | ok v => simp [h]

/-- Witness for the getCustomTypes theorem: a stored entry that parses is
returned as parsed, and a stored entry that fails to parse yields the empty
array. -/
theorem getCustomTypes_total_witness :
    AppJs.getCustomTypes parseW ([] : List Nat) (some "[1]") = .ok [1] ∧
    AppJs.getCustomTypes parseW ([] : List Nat) (some "oops") = .ok [] :=
  ⟨(getCustomTypes_total parseW [] (some "[1]")).2.2.1 [1] rfl,
   (getCustomTypes_total parseW [] (some "oops")).2.2.2 "bad" rfl⟩

/-- C6 counterexample: saveCustomType accepts the parsed width 1/250
(0.004), which lies in (0, 2.4], but the stored width rounds to two decimals
as 0, so a stored caller-defined type can carry a degenerate zero width,
contradicting the claim that every stored width lies in (0, 2.4]. -/
theorem saveCustomType_degenerate_cex :
    AppJs.saveCustomType 0 "a" (some (1/250)) (some 1) [] =
      [⟨"custom_0", "a", 0, 1⟩] ∧
    ¬ (∀ t ∈ AppJs.saveCustomType 0 "a" (some (1/250)) (some 1) [], 0 < t.width) := by
  have h1 : AppJs.saveCustomType 0 "a" (some (1/250)) (some 1) [] =
      [⟨"custom_0", "a", 0, 1⟩] := by with_unfolding_all rfl
  refine ⟨h1, fun h => ?_⟩
  have h2 := h ⟨"custom_0", "a", 0, 1⟩ (by rw [h1]; exact List.mem_singleton_self _)
  simp at h2

/-- C6 as amended: saveCustomType appends a new custom type if and only if
the trimmed name is non-empty, the parsed width lies in (0, 2.4] and the
parsed length lies in (0, 13.2]; every stored type then carries width in
[0, 2.4] and length in [0, 13.2], where the rounding to two decimals can
produce a zero dimension when the parsed value is below 0.005. -/
theorem saveCustomType_adds_iff (now : Nat) (nameRaw : String) (wp lp : Option ℚ)
    (types : List AppJs.CustomType) :
    ((∃ t, AppJs.saveCustomType now nameRaw wp lp types = types ++ [t]) ↔
      (nameRaw.trim ≠ "" ∧ ∃ w, wp = some w ∧ 0 < w ∧ w ≤ 12/5 ∧
        ∃ l, lp = some l ∧ 0 < l ∧ l ≤ 66/5)) ∧
    (∀ t, AppJs.saveCustomType now nameRaw wp lp types = types ++ [t] →
      0 ≤ t.width ∧ t.width ≤ 12/5 ∧ 0 ≤ t.length ∧ t.length ≤ 66/5) := by
  unfold AppJs.saveCustomType
  by_cases hn : nameRaw.trim = ""
  · simp only [if_pos hn]
    exact ⟨⟨fun ⟨t, ht⟩ => absurd ht (by simp), fun h => absurd hn h.1⟩,
      fun t ht => absurd ht (by simp)⟩
  · simp only [if_neg hn]
    cases wp with
    | none =>
      refine ⟨⟨fun ⟨t, ht⟩ => absurd ht (by simp), ?_⟩, fun t ht => absurd ht (by simp)⟩
      rintro ⟨-, w, hw, -⟩
      cases hw
    | some w =>
      by_cases hw : w ≤ 0 ∨ (12/5 : ℚ) < w
      · simp only [if_pos hw]
        refine ⟨⟨fun ⟨t, ht⟩ => absurd ht (by simp), ?_⟩, fun t ht => absurd ht (by simp)⟩
        rintro ⟨-, w2, hw2, hw0, hwle, -⟩
        obtain rfl : w = w2 := Option.some_inj.mp hw2
        rcases hw with h | h <;> linarith
      · simp only [if_neg hw]
        push_neg at hw
        cases lp with
        | none =>
          refine ⟨⟨fun ⟨t, ht⟩ => absurd ht (by simp), ?_⟩, fun t ht => absurd ht (by simp)⟩
          rintro ⟨-, w2, hw2, hw0, hwle, l, hl, -⟩
          cases hl
        | some l =>
          by_cases hl : l ≤ 0 ∨ (66/5 : ℚ) < l
          · simp only [if_pos hl]
            refine ⟨⟨fun ⟨t, ht⟩ => absurd ht (by simp), ?_⟩, fun t ht => absurd ht (by simp)⟩
            rintro ⟨-, w2, hw2, hw0, hwle, l2, hl2, hl0, hlle⟩
            obtain rfl : l = l2 := Option.some_inj.mp hl2
            rcases hl with h | h <;> linarith
          · simp only [if_neg hl]
            push_neg at hl
            constructor
            · constructor
              · intro _
                exact ⟨hn, w, rfl, hw.1, hw.2, l, rfl, hl.1, hl.2⟩
              · intro _
                exact ⟨_, rfl⟩
            · intro t ht
              have h1 : t = ⟨"custom_" ++ toString now, nameRaw.trim,
                  AppJs.round2 w, AppJs.round2 l⟩ := by
                have := List.append_cancel_left ht
                simpa using this.symm
              subst h1
              refine ⟨AppJs.round2_nonneg (le_of_lt hw.1), ?_,
                AppJs.round2_nonneg (le_of_lt hl.1), ?_⟩
              · exact AppJs.round2_le_of_le (n := 240) (by norm_num) hw.2
              · exact AppJs.round2_le_of_le (n := 1320) (by norm_num) hl.2

/-- Witness for the amended saveCustomType theorem at a concrete accepted
input: name box, width 1, length 2. -/
theorem saveCustomType_adds_iff_witness :
    0 ≤ (⟨"custom_1", "box", 1, 2⟩ : AppJs.CustomType).width ∧
    (⟨"custom_1", "box", 1, 2⟩ : AppJs.CustomType).width ≤ 12/5 ∧
    0 ≤ (⟨"custom_1", "box", 1, 2⟩ : AppJs.CustomType).length ∧
    (⟨"custom_1", "box", 1, 2⟩ : AppJs.CustomType).length ≤ 66/5 :=
  (saveCustomType_adds_iff 1 "box" (some 1) (some 2) []).2
    ⟨"custom_1", "box", 1, 2⟩ (by with_unfolding_all rfl)

/-- C5: every card of the unplaced breakdown built by displayResults reports
the requested count for its (type, stackable) combination minus the placed
count of that combination, clamped at zero; the value is never negative and
is zero whenever the placed count meets or exceeds the requested count.  The
custom type identifiers are assumed distinct from the two built-in names, as
guaranteed by the custom_ prefix that saveCustomType generates. -/
theorem displayBreakdown_shortfall (p : Option AppJs.Payload)
    (cts : List AppJs.CustomType) (placed : List AppJs.RespBox)
    (hids : ∀ ct ∈ cts, ct.id ≠ "american" ∧ ct.id ≠ "european") :
    ∀ item ∈ AppJs.displayBreakdown p cts placed,
      item.count = max 0 (AppJs.requestedFor p item.type item.stackable -
        (AppJs.placedCountJS placed item.type item.stackable : Int)) ∧
      0 ≤ item.count ∧
      (AppJs.requestedFor p item.type item.stackable ≤
        (AppJs.placedCountJS placed item.type item.stackable : Int) → item.count = 0) := by
  intro item hitem
  have key : item.count = max 0 (AppJs.requestedFor p item.type item.stackable -
      (AppJs.placedCountJS placed item.type item.stackable : Int)) := by
    rcases List.mem_append.mp hitem with hb | hc
    · simp only [AppJs.builtinBreakdown, List.mem_cons, List.not_mem_nil, or_false] at hb
      rcases hb with rfl | rfl | rfl | rfl <;> simp [AppJs.requestedFor]
    · simp only [AppJs.customBreakdown, List.mem_flatMap] at hc
      obtain ⟨ct, hct, hmem⟩ := hc
      obtain ⟨h1, h2⟩ := hids ct hct
      simp only [List.mem_cons, List.not_mem_nil, or_false] at hmem
      rcases hmem with rfl | rfl <;>
        simp [AppJs.requestedFor, h1, h2]
  refine ⟨key, ?_, ?_⟩
  · rw [key]; exact le_max_left 0 _
  · intro hle
    rw [key]
    omega

/-- Witness for the breakdown theorem: with three american stackable boxes
requested and one placed, the american stackable card reports 2. -/
theorem displayBreakdown_shortfall_witness :
    (⟨"american", true, "American Stackable", 2⟩ : AppJs.BreakdownItem).count =
      max 0 (AppJs.requestedFor (some payloadW) "american" true -
        (AppJs.placedCountJS placedW "american" true : Int)) ∧
    (0 : Int) ≤ (⟨"american", true, "American Stackable", 2⟩ : AppJs.BreakdownItem).count :=
  have h := displayBreakdown_shortfall (some payloadW) ctsW placedW
    (fun ct hct => by
      simp only [ctsW, List.mem_singleton] at hct
      subst hct
      exact ⟨by decide, by decide⟩)
    ⟨"american", true, "American Stackable", 2⟩
    (of_decide_eq_true (by with_unfolding_all rfl))
  ⟨h.1, h.2.1⟩

namespace TruckOpt

theorem rectsOverlap_symm {a b : Rect} (h : rectsOverlap a b) : rectsOverlap b a := by
  obtain ⟨h1, h2, h3, h4⟩ := h
  exact ⟨h2, h1, h4, h3⟩

theorem overlap_mono_left {a b c : Rect} (hab : containedIn a b)
    (h : rectsOverlap a c) : rectsOverlap b c := by
  obtain ⟨s1, s2, s3, s4⟩ := hab
  obtain ⟨h1, h2, h3, h4⟩ := h
  exact ⟨by linarith, by linarith, by linarith, by linarith⟩

theorem inTruck_of_containedIn {t : Truck} {a b : Rect} (hab : containedIn a b)
    (hb : inTruck t b) : inTruck t a := by
  obtain ⟨s1, s2, s3, s4⟩ := hab
  obtain ⟨h1, h2, h3, h4⟩ := hb
  exact ⟨by linarith, by linarith, by linarith, by linarith⟩

theorem mem_ite_singleton {c : Prop} [Decidable c] {r s : Rect}
    (h : r ∈ (if c then [s] else [])) : r = s ∧ c := by
  by_cases hc : c
  · rw [if_pos hc] at h
    exact ⟨List.mem_singleton.mp h, hc⟩
  · rw [if_neg hc] at h
    cases h

theorem splitRect_cases {f p r : Rect} (h : r ∈ splitRect f p) :
    containedIn r f ∧ ¬ rectsOverlap r p := by
  unfold splitRect at h
  by_cases ho : rectsOverlap f p
  · rw [if_pos ho] at h
    obtain ⟨o1, o2, o3, o4⟩ := ho
    simp only [List.mem_append] at h
    unfold containedIn rectsOverlap
    rcases h with ((h | h) | h) | h <;>
      obtain ⟨rfl, hc⟩ := mem_ite_singleton h <;>
      dsimp only <;>
      refine ⟨⟨by linarith, by linarith, by linarith, by linarith⟩, ?_⟩ <;>
      rintro ⟨k1, k2, k3, k4⟩ <;>
      linarith
  · rw [if_neg ho] at h
    obtain rfl := List.mem_singleton.mp h
    exact ⟨⟨le_refl _, le_refl _, le_refl _, le_refl _⟩, ho⟩

theorem pruneContained_subset {l : List Rect} {r : Rect}
    (h : r ∈ pruneContained l) : r ∈ l := by
  unfold pruneContained at h
  obtain ⟨q, hmem, hr⟩ := List.mem_map.mp h
  obtain ⟨hmem2, -⟩ := List.mem_filter.mp hmem
  have := List.snd_mem_of_mem_enum hmem2
  rw [hr] at this
  exact this

theorem chooseBest_mem {l : List Candidate} {c : Candidate}
    (h : chooseBest l = some c) : c ∈ l := by
  unfold chooseBest at h
  have hgen : ∀ (l2 : List Candidate) (acc : Option Candidate) (a : Candidate),
      l2.foldl (fun acc c => match acc with
        | none => some c
        | some a2 => if betterCand c a2 then some c else some a2) acc = some a →
      acc = some a ∨ a ∈ l2 := by
    intro l2
    induction l2 with
    | nil => intro acc a ha; exact Or.inl ha
    | cons x xs ih =>
      intro acc a ha
      rw [List.foldl_cons] at ha
      rcases ih _ a ha with hstep | hmem
      · cases acc with
        | none =>
          simp only [] at hstep
          exact Or.inr (by rw [← Option.some_inj.mp hstep]; exact List.mem_cons_self _ _)
        | some b =>
          simp only [] at hstep
          by_cases hbc : betterCand x b
          · rw [if_pos hbc] at hstep
            exact Or.inr (by rw [← Option.some_inj.mp hstep]; exact List.mem_cons_self _ _)
          · rw [if_neg hbc] at hstep
            exact Or.inl hstep
      · exact Or.inr (List.mem_cons_of_mem _ hmem)
  rcases hgen l none c h with hno | hmem
  · cases hno
  · exact hmem

theorem candidatesFor_mem {free : List Rect} {bw bh : ℚ} {c : Candidate}
    (h : c ∈ candidatesFor free bw bh) :
    c.rect ∈ free ∧ fitsIn c.rect c.bw c.bh ∧
      ((c.bw = bw ∧ c.bh = bh) ∨ (c.bw = bh ∧ c.bh = bw)) := by
  unfold candidatesFor at h
  obtain ⟨r, hr, hmem⟩ := List.mem_flatMap.mp h
  simp only [List.mem_append] at hmem
  rcases hmem with hm | hm
  · by_cases hf : fitsIn r bw bh
    · rw [if_pos hf] at hm
      obtain rfl := List.mem_singleton.mp hm
      exact ⟨hr, hf, Or.inl ⟨rfl, rfl⟩⟩
    · rw [if_neg hf] at hm
      cases hm
  · by_cases hf : fitsIn r bh bw
    · rw [if_pos hf] at hm
      obtain rfl := List.mem_singleton.mp hm
      exact ⟨hr, hf, Or.inr ⟨rfl, rfl⟩⟩
    · rw [if_neg hf] at hm
      cases hm

theorem placeInstance_inv {t : Truck} {st st2 : PackState} {b : BoxInstance}
    (hb : 0 < b.w ∧ 0 < b.l) (hinv : PackInv t st)
    (h : placeInstance st b = some st2) : PackInv t st2 := by
  unfold placeInstance at h
  cases hc : chooseBest (candidatesFor st.free b.w b.l) with
  | none => rw [hc] at h; cases h
  | some c =>
    rw [hc] at h
    injection h with h2
    subst h2
    obtain ⟨hcr, hcfit, hcdims⟩ := candidatesFor_mem (chooseBest_mem hc)
    set pb : PlacedBox :=
      ⟨b.typeId, c.rect.x, c.rect.y, c.bw, c.bh, b.stackable, c.rotated, false⟩ with hpb
    have hpbrect : pb.rect = ⟨c.rect.x, c.rect.y, c.bw, c.bh⟩ := rfl
    have hpbsub : containedIn pb.rect c.rect := by
      rw [hpbrect]
      exact ⟨le_refl _, le_refl _, by have := hcfit.1; dsimp only; linarith,
        by have := hcfit.2; dsimp only; linarith⟩
    have hpbpos : 0 < pb.w ∧ 0 < pb.h := by
      rcases hcdims with ⟨hw, hh⟩ | ⟨hw, hh⟩ <;>
        exact ⟨by rw [hpb]; dsimp only; rw [hw]; exact (by rcases hb with ⟨h1, h2⟩; first | exact h1 | exact h2),
               by rw [hpb]; dsimp only; rw [hh]; exact (by rcases hb with ⟨h1, h2⟩; first | exact h1 | exact h2)⟩
    have hpb_in : inTruck t pb.rect :=
      inTruck_of_containedIn hpbsub (hinv.free_in _ hcr)
    have hpb_disj_old : ∀ p ∈ st.placed, ¬ rectsOverlap pb.rect p.rect :=
      fun p hp hov => hinv.free_disj c.rect hcr p hp (overlap_mono_left hpbsub hov)
    have hfree2 : ∀ r ∈ pruneContained (st.free.flatMap fun f => splitRect f pb.rect),
        ∃ f ∈ st.free, containedIn r f ∧ ¬ rectsOverlap r pb.rect := by
      intro r hr
      obtain ⟨f, hf, hrf⟩ := List.mem_flatMap.mp (pruneContained_subset hr)
      obtain ⟨hsub, hdisj⟩ := splitRect_cases hrf
      exact ⟨f, hf, hsub, hdisj⟩
    constructor
    · intro r hr
      obtain ⟨f, hf, hsub, -⟩ := hfree2 r hr
      exact inTruck_of_containedIn hsub (hinv.free_in f hf)
    · intro r hr p hp
      obtain ⟨f, hf, hsub, hdisj⟩ := hfree2 r hr
      rcases List.mem_append.mp hp with h1 | h1
      · exact fun hov => hinv.free_disj f hf p h1 (overlap_mono_left hsub hov)
      · obtain rfl := List.mem_singleton.mp h1
        exact hdisj
    · intro p hp
      rcases List.mem_append.mp hp with h1 | h1
      · exact hinv.placed_in p h1
      · obtain rfl := List.mem_singleton.mp h1
        exact hpb_in
    · refine List.pairwise_append.mpr ⟨hinv.placed_disj, List.pairwise_singleton _ _, ?_⟩
      intro a ha b2 hb2
      obtain rfl := List.mem_singleton.mp hb2
      exact fun hov => hpb_disj_old a ha (rectsOverlap_symm hov)
    · intro p hp
      rcases List.mem_append.mp hp with h1 | h1
      · exact hinv.placed_pos p h1
      · obtain rfl := List.mem_singleton.mp h1
        exact hpbpos
    · intro p hp
      rcases List.mem_append.mp hp with h1 | h1
      · exact hinv.placed_floor p h1
      · obtain rfl := List.mem_singleton.mp h1
        rfl

theorem foldl_packStep_inv (t : Truck) :
    ∀ (l : List BoxInstance) (acc : PackState × List BoxInstance),
      (∀ b ∈ l, 0 < b.w ∧ 0 < b.l) → PackInv t acc.1 →
      PackInv t (l.foldl packStep acc).1 := by
  intro l
  induction l with
  | nil => intro acc _ hinv; exact hinv
  | cons b rest ih =>
    intro acc hpos hinv
    rw [List.foldl_cons]
    refine ih _ (fun x hx => hpos x (List.mem_cons_of_mem _ hx)) ?_
    unfold packStep
    cases h : placeInstance acc.1 b with
    | none => exact hinv
    | some st => exact placeInstance_inv (hpos b (List.mem_cons_self _ _)) hinv h

theorem packFloor_inv (t : Truck) (l : List BoxInstance)
    (hpos : ∀ b ∈ l, 0 < b.w ∧ 0 < b.l) :
    (packFloor t l).1.Pairwise (fun a b => ¬ rectsOverlap a.rect b.rect) ∧
    (∀ p ∈ (packFloor t l).1, inTruck t p.rect) ∧
    (∀ p ∈ (packFloor t l).1, 0 < p.w ∧ 0 < p.h) ∧
    (∀ p ∈ (packFloor t l).1, p.stacked = false) := by
  have hinit : PackInv t ⟨[⟨0, 0, t.width, t.length⟩], []⟩ := by
    constructor
    · intro r hr
      obtain rfl := List.mem_singleton.mp hr
      exact ⟨le_refl _, le_refl _, by dsimp only; rw [zero_add], by dsimp only; rw [zero_add]⟩
    · intro r hr p hp; cases hp
    · intro p hp; cases hp
    · exact List.Pairwise.nil
    · intro p hp; cases hp
    · intro p hp; cases hp
  have hfin := foldl_packStep_inv t l (⟨[⟨0, 0, t.width, t.length⟩], []⟩, []) hpos hinit
  exact ⟨hfin.placed_disj, hfin.placed_in, hfin.placed_pos, hfin.placed_floor⟩

theorem validInstances_pos (t : Truck) (reqs : List ReqEntry) :
    ∀ b ∈ validInstances t reqs, 0 < b.w ∧ 0 < b.l := by
  intro b hb
  obtain ⟨-, hf⟩ := List.mem_filter.mp hb
  have hv := of_decide_eq_true hf
  exact ⟨hv.1, hv.2.1⟩

theorem strategies_perm (l : List BoxInstance) :
    ∀ s ∈ strategies l, List.Perm s l := by
  intro s hs
  simp only [strategies, List.mem_cons, List.not_mem_nil, or_false] at hs
  rcases hs with rfl | rfl | rfl | rfl | rfl | rfl
  · exact List.perm_insertionSort _ _
  · exact List.perm_insertionSort _ _
  · exact List.perm_insertionSort _ _
  · exact List.perm_insertionSort _ _
  · exact List.Perm.refl _
  · exact interleaveOrder_perm _

theorem bestFloor_props (t : Truck) (reqs : List ReqEntry) :
    (bestFloor t reqs).1.Pairwise (fun a b => ¬ rectsOverlap a.rect b.rect) ∧
    (∀ p ∈ (bestFloor t reqs).1, inTruck t p.rect) ∧
    (∀ p ∈ (bestFloor t reqs).1, 0 < p.w ∧ 0 < p.h) ∧
    (∀ p ∈ (bestFloor t reqs).1, p.stacked = false) := by
  obtain ⟨ord, hord, hbest⟩ := bestFloor_mem t reqs
  rw [hbest]
  apply packFloor_inv
  intro b hb
  exact validInstances_pos t reqs b ((strategies_perm _ ord hord).mem_iff.mp hb)

theorem stackLoop_stacked :
    ∀ (insts : List BoxInstance) (targets : List PlacedBox)
      (sAcc : List PlacedBox) (uAcc : List BoxInstance),
      (∀ p ∈ sAcc, p.stacked = true) →
      ∀ p ∈ (stackLoop targets insts sAcc uAcc).1, p.stacked = true := by
  intro insts
  induction insts with
  | nil =>
    intro targets sAcc uAcc hs p hp
    simp only [stackLoop] at hp
    exact hs p hp
  | cons b rest ih =>
    intro targets sAcc uAcc hs
    unfold stackLoop
    cases h : targets.find? (fun t2 => t2.typeId == b.typeId) with
    | none => exact ih _ _ _ hs
    | some t2 =>
      refine ih _ _ _ ?_
      intro p hp
      rcases List.mem_append.mp hp with h1 | h1
      · exact hs p h1
      · obtain rfl := List.mem_singleton.mp h1
        rfl

theorem stackedResult_stacked (t : Truck) (reqs : List ReqEntry) :
    ∀ p ∈ (stackedResult t reqs).1, p.stacked = true := by
  unfold stackedResult stackPhase
  exact stackLoop_stacked _ _ _ _ (fun q hq => by cases hq)

end TruckOpt

open TruckOpt in
/-- C2: in every accepted output, the first-layer placed boxes (stacked =
false) have pairwise non-overlapping rectangles on the truck floor. -/
theorem optimize_floor_no_overlap (t : Truck) (reqs : List ReqEntry) (out : PackOutput)
    (h : optimize t reqs = .ok out) :
    (out.placed.filter fun p => !p.stacked).Pairwise
      (fun a b => ¬ rectsOverlap a.rect b.rect) := by
  obtain rfl := optimize_ok h
  have hprops := bestFloor_props t reqs
  have hfilter : (okOutput t reqs).placed.filter (fun p => !p.stacked)
      = (bestFloor t reqs).1 := by
    show ((bestFloor t reqs).1 ++ (stackedResult t reqs).1).filter (fun p => !p.stacked)
      = (bestFloor t reqs).1
    rw [List.filter_append]
    have h1 : (bestFloor t reqs).1.filter (fun p => !p.stacked) = (bestFloor t reqs).1 :=
      List.filter_eq_self.mpr fun p hp => by rw [hprops.2.2.2 p hp]; rfl
    have h2 : (stackedResult t reqs).1.filter (fun p => !p.stacked) = [] :=
      List.filter_eq_nil_iff.mpr fun p hp => by
        rw [stackedResult_stacked t reqs p hp]; simp
    rw [h1, h2, List.append_nil]
  rw [hfilter]
  exact hprops.1

/-- Witness for the floor non-overlap theorem at the concrete witness
request. -/
theorem optimize_floor_no_overlap_witness :
    (outW.placed.filter fun p => !p.stacked).Pairwise
      (fun a b => ¬ TruckOpt.rectsOverlap a.rect b.rect) :=
  optimize_floor_no_overlap truckW reqsW outW (by with_unfolding_all rfl)

namespace TruckOpt

theorem stackLoop_support (base : List PlacedBox) :
    ∀ (insts : List BoxInstance) (targets : List PlacedBox)
      (sAcc : List PlacedBox) (uAcc : List BoxInstance),
      (∀ t2 ∈ targets, t2 ∈ base ∧ t2.stackable = true ∧ t2.stacked = false) →
      (∀ s ∈ sAcc, ∃ f ∈ base, f.stackable = true ∧ f.stacked = false ∧
        f.typeId = s.typeId ∧ f.x = s.x ∧ f.y = s.y ∧ f.w = s.w ∧ f.h = s.h) →
      ∀ s ∈ (stackLoop targets insts sAcc uAcc).1,
        ∃ f ∈ base, f.stackable = true ∧ f.stacked = false ∧
          f.typeId = s.typeId ∧ f.x = s.x ∧ f.y = s.y ∧ f.w = s.w ∧ f.h = s.h := by
  intro insts
  induction insts with
  | nil =>
    intro targets sAcc uAcc htg hs s hsmem
    simp only [stackLoop] at hsmem
    exact hs s hsmem
  | cons b rest ih =>
    intro targets sAcc uAcc htg hs
    unfold stackLoop
    cases hf : targets.find? (fun t2 => t2.typeId == b.typeId) with
    | none => exact ih _ _ _ htg hs
    | some t2 =>
      have ht2mem : t2 ∈ targets := List.mem_of_find?_eq_some hf
      have ht2ty : t2.typeId = b.typeId := by
        have := List.find?_some hf
        exact eq_of_beq this
      refine ih _ _ _ (fun q hq => htg q (List.mem_of_mem_erase hq)) ?_
      intro s hsmem
      rcases List.mem_append.mp hsmem with h1 | h1
      · exact hs s h1
      · obtain rfl := List.mem_singleton.mp h1
        obtain ⟨hb2, hstk, hfl⟩ := htg t2 ht2mem
        exact ⟨t2, hb2, hstk, hfl, ht2ty, rfl, rfl, rfl, rfl⟩

theorem stackLoop_distinct :
    ∀ (insts : List BoxInstance) (targets : List PlacedBox)
      (sAcc : List PlacedBox) (uAcc : List BoxInstance),
      ((targets ++ sAcc).map PlacedBox.rect).Pairwise (fun a b => a ≠ b) →
      (((stackLoop targets insts sAcc uAcc).1.map PlacedBox.rect).Pairwise
        (fun a b => a ≠ b)) := by
  intro insts
  induction insts with
  | nil =>
    intro targets sAcc uAcc hpw
    simp only [stackLoop]
    have hsub : List.Sublist sAcc (targets ++ sAcc) := List.sublist_append_right _ _
    exact hpw.sublist (hsub.map PlacedBox.rect)
  | cons b rest ih =>
    intro targets sAcc uAcc hpw
    unfold stackLoop
    cases hf : targets.find? (fun t2 => t2.typeId == b.typeId) with
    | none => exact ih _ _ _ hpw
    | some t2 =>
      have ht2mem : t2 ∈ targets := List.mem_of_find?_eq_some hf
      refine ih _ _ _ ?_
      have hsb : PlacedBox.rect
          ⟨b.typeId, t2.x, t2.y, t2.w, t2.h, b.stackable, t2.rotated, true⟩ = t2.rect := rfl
      have e1 : (targets.erase t2 ++ (sAcc ++
            [(⟨b.typeId, t2.x, t2.y, t2.w, t2.h, b.stackable, t2.rotated, true⟩ : PlacedBox)])).map
              PlacedBox.rect
          = ((targets.erase t2).map PlacedBox.rect ++ sAcc.map PlacedBox.rect) ++ [t2.rect] := by
        simp [List.map_append, hsb]
      have h1 := (List.perm_cons_erase ht2mem).map PlacedBox.rect
      have h2 : List.Perm ((targets ++ sAcc).map PlacedBox.rect)
          (t2.rect :: ((targets.erase t2).map PlacedBox.rect ++ sAcc.map PlacedBox.rect)) := by
        rw [List.map_append]
        exact List.Perm.append_right _ h1
      have h3 : List.Perm
          (((targets.erase t2).map PlacedBox.rect ++ sAcc.map PlacedBox.rect) ++ [t2.rect])
          (t2.rect :: ((targets.erase t2).map PlacedBox.rect ++ sAcc.map PlacedBox.rect)) := by
        have hm := @List.perm_middle _ t2.rect
          ((targets.erase t2).map PlacedBox.rect ++ sAcc.map PlacedBox.rect) []
        simpa using hm
      rw [e1]
      have hperm : List.Perm
          (((targets.erase t2).map PlacedBox.rect ++ sAcc.map PlacedBox.rect) ++ [t2.rect])
          ((targets ++ sAcc).map PlacedBox.rect) :=
        h3.trans h2.symm
      exact (List.Perm.pairwise_iff (fun h => h.symm) hperm).mpr hpw

theorem bestFloor_rect_ne (t : Truck) (reqs : List ReqEntry) :
    (bestFloor t reqs).1.Pairwise (fun a b => a.rect ≠ b.rect) := by
  have hprops := bestFloor_props t reqs
  refine List.Pairwise.imp_of_mem ?_ hprops.1
  intro a b ha hb hno heq
  apply hno
  obtain ⟨hw2, hh2⟩ := hprops.2.2.1 b hb
  rw [heq]
  unfold rectsOverlap PlacedBox.rect
  dsimp only
  exact ⟨by linarith, by linarith, by linarith, by linarith⟩

end TruckOpt

open TruckOpt in
/-- C3: in every accepted output, each stacked box sits exactly on a
first-layer box with the same position and extent, the same box type
identifier and stackable set, and no two stacked boxes share a footprint,
so no first-layer box supports more than one stacked box (first-layer boxes
have pairwise distinct rectangles by the C2 invariant). -/
theorem optimize_stacking_valid (t : Truck) (reqs : List ReqEntry) (out : PackOutput)
    (h : optimize t reqs = .ok out) :
    (∀ s ∈ out.placed, s.stacked = true →
      ∃ f ∈ out.placed, f.stackable = true ∧ f.stacked = false ∧
        f.typeId = s.typeId ∧ f.x = s.x ∧ f.y = s.y ∧ f.w = s.w ∧ f.h = s.h) ∧
    ((out.placed.filter fun p => p.stacked).map PlacedBox.rect).Pairwise
      (fun a b => a ≠ b) := by
  obtain rfl := optimize_ok h
  have hprops := bestFloor_props t reqs
  have hfilter : (okOutput t reqs).placed.filter (fun p => p.stacked)
      = (stackedResult t reqs).1 := by
    show ((bestFloor t reqs).1 ++ (stackedResult t reqs).1).filter (fun p => p.stacked)
      = (stackedResult t reqs).1
    rw [List.filter_append]
    have h1 : (bestFloor t reqs).1.filter (fun p => p.stacked) = [] :=
      List.filter_eq_nil_iff.mpr fun p hp => by rw [hprops.2.2.2 p hp]; simp
    have h2 : (stackedResult t reqs).1.filter (fun p => p.stacked)
        = (stackedResult t reqs).1 :=
      List.filter_eq_self.mpr fun p hp => by rw [stackedResult_stacked t reqs p hp]
    rw [h1, h2, List.nil_append]
  constructor
  · intro s hs hstk
    rcases List.mem_append.mp hs with h1 | h1
    · rw [hprops.2.2.2 s h1] at hstk
      cases hstk
    · have h1b : s ∈ (stackLoop
          ((bestFloor t reqs).1.filter fun p => p.stackable && !p.stacked)
          (bestFloor t reqs).2 [] []).1 := by
        have : (stackedResult t reqs).1 = (stackLoop
            ((bestFloor t reqs).1.filter fun p => p.stackable && !p.stacked)
            (bestFloor t reqs).2 [] []).1 := rfl
        rw [← this]
        exact h1
      have hsupp := stackLoop_support (bestFloor t reqs).1 (bestFloor t reqs).2
        ((bestFloor t reqs).1.filter fun p => p.stackable && !p.stacked) [] []
        (fun t2 ht2 => by
          obtain ⟨hmem, hpred⟩ := List.mem_filter.mp ht2
          have hp2 := hprops.2.2.2 t2 hmem
          simp only [Bool.and_eq_true, Bool.not_eq_true'] at hpred
          exact ⟨hmem, hpred.1, hp2⟩)
        (fun q hq => by cases hq)
      obtain ⟨f, hf, hfs, hff, hrest⟩ := hsupp s h1b
      exact ⟨f, List.mem_append_left _ hf, hfs, hff, hrest⟩
  · rw [hfilter]
    have hinit : ((((bestFloor t reqs).1.filter fun p => p.stackable && !p.stacked) ++
        ([] : List PlacedBox)).map PlacedBox.rect).Pairwise (fun a b => a ≠ b) := by
      rw [List.append_nil, List.pairwise_map]
      exact ((bestFloor_rect_ne t reqs).sublist (List.filter_sublist _))
    exact stackLoop_distinct _ _ _ _ hinit

/-- Witness for the stacking theorem: on the one-box-wide truck the second
box is stacked and its support is reported with identical footprint. -/
theorem optimize_stacking_valid_witness :
    ∃ f ∈ outS.placed, f.stackable = true ∧ f.stacked = false ∧
      f.typeId = "american" ∧ f.x = 0 ∧ f.y = 0 ∧ f.w = 1 ∧ f.h = 6/5 :=
  (optimize_stacking_valid truckS reqsS outS (by with_unfolding_all rfl)).1
    ⟨"american", 0, 0, 1, 6/5, true, false, true⟩
    (of_decide_eq_true (by with_unfolding_all rfl))
    rfl

namespace TruckOpt

theorem rectSet_measurable (r : Rect) : MeasurableSet (rectSet r) :=
  measurableSet_Ico.prod measurableSet_Ico

theorem rectSet_volume (r : Rect) (hw : 0 ≤ r.w) (hh : 0 ≤ r.h) :
    volume (rectSet r) = ENNReal.ofReal ((r.w : ℝ) * (r.h : ℝ)) := by
  rw [rectSet, Measure.volume_eq_prod, Measure.prod_prod, Real.volume_Ico, Real.volume_Ico]
  rw [add_sub_cancel_left, add_sub_cancel_left]
  rw [ENNReal.ofReal_mul (by exact_mod_cast hw)]

theorem rectSet_disjoint {a b : Rect} (h : ¬ rectsOverlap a b) :
    Disjoint (rectSet a) (rectSet b) := by
  unfold rectsOverlap at h
  push_neg at h
  rw [rectSet, rectSet, Set.disjoint_prod]
  by_cases h1 : (a.x : ℚ) < b.x + b.w
  · by_cases h2 : (b.x : ℚ) < a.x + a.w
    · by_cases h3 : (a.y : ℚ) < b.y + b.h
      · have h4 := h h1 h2 h3
        right
        rw [Set.Ico_disjoint_Ico]
        have hc : (a.y : ℝ) + (a.h : ℝ) ≤ (b.y : ℝ) := by exact_mod_cast h4
        refine le_trans (min_le_left _ _) (le_trans hc (le_max_right _ _))
      · push_neg at h3
        right
        rw [Set.Ico_disjoint_Ico]
        have hc : (b.y : ℝ) + (b.h : ℝ) ≤ (a.y : ℝ) := by exact_mod_cast h3
        refine le_trans (min_le_right _ _) (le_trans hc (le_max_left _ _))
    · push_neg at h2
      left
      rw [Set.Ico_disjoint_Ico]
      have : (a.x : ℝ) + (a.w : ℝ) ≤ (b.x : ℝ) := by exact_mod_cast h2
      refine le_trans (min_le_left _ _) (le_trans this (le_max_right _ _))
  · push_neg at h1
    left
    rw [Set.Ico_disjoint_Ico]
    have : (b.x : ℝ) + (b.w : ℝ) ≤ (a.x : ℝ) := by exact_mod_cast h1
    refine le_trans (min_le_right _ _) (le_trans this (le_max_left _ _))

theorem volume_rect_list :
    ∀ (l : List Rect), (∀ r ∈ l, 0 ≤ r.w ∧ 0 ≤ r.h) →
      (l.Pairwise fun a b => ¬ rectsOverlap a b) →
      volume (⋃ r ∈ l, rectSet r)
        = ENNReal.ofReal ((l.map fun r => (r.w : ℝ) * (r.h : ℝ)).sum) := by
  intro l
  induction l with
  | nil => intro _ _; simp
  | cons a l ih =>
    intro hpos hpw
    have hdisj : Disjoint (rectSet a) (⋃ r ∈ l, rectSet r) := by
      rw [Set.disjoint_iUnion₂_right]
      intro r hr
      exact rectSet_disjoint ((List.pairwise_cons.mp hpw).1 r hr)
    have hmeas : MeasurableSet (⋃ r ∈ l, rectSet r) :=
      MeasurableSet.biUnion (List.finite_toSet l).countable fun r _ => rectSet_measurable r
    have hcons : (⋃ r ∈ a :: l, rectSet r) = rectSet a ∪ ⋃ r ∈ l, rectSet r := by
      simp [List.mem_cons, Set.iUnion_or, Set.iUnion_union_distrib,
        Set.iUnion_iUnion_eq_left]
    rw [hcons, measure_union hdisj hmeas,
      ih (fun r hr => hpos r (List.mem_cons_of_mem _ hr)) (List.pairwise_cons.mp hpw).2,
      rectSet_volume a (hpos a (List.mem_cons_self _ _)).1 (hpos a (List.mem_cons_self _ _)).2,
      List.map_cons, List.sum_cons]
    rw [ENNReal.ofReal_add]
    · obtain ⟨hw, hh⟩ := hpos a (List.mem_cons_self _ _)
      exact mul_nonneg (by exact_mod_cast hw) (by exact_mod_cast hh)
    · apply List.sum_nonneg
      intro x hx
      obtain ⟨r, hr, rfl⟩ := List.mem_map.mp hx
      obtain ⟨hw, hh⟩ := hpos r (List.mem_cons_of_mem _ hr)
      exact mul_nonneg (by exact_mod_cast hw) (by exact_mod_cast hh)

theorem rectSet_subset_truck {t : Truck} {r : Rect} (h : inTruck t r) :
    rectSet r ⊆ truckSet t := by
  obtain ⟨h1, h2, h3, h4⟩ := h
  apply Set.prod_mono
  · exact Set.Ico_subset_Ico (by exact_mod_cast h1) (by exact_mod_cast h3)
  · exact Set.Ico_subset_Ico (by exact_mod_cast h2) (by exact_mod_cast h4)

theorem cast_area_sum :
    ∀ (m : List PlacedBox),
      (((m.map fun p => p.w * p.h).sum : ℚ) : ℝ)
        = ((m.map PlacedBox.rect).map fun r => (r.w : ℝ) * (r.h : ℝ)).sum := by
  intro m
  induction m with
  | nil => simp
  | cons p m ihm =>
    simp only [List.map_cons, List.sum_cons, Rat.cast_add, Rat.cast_mul, ihm]
    rfl

theorem sum_area_le (t : Truck) (l : List PlacedBox)
    (hin : ∀ p ∈ l, inTruck t p.rect)
    (hpos : ∀ p ∈ l, 0 < p.w ∧ 0 < p.h)
    (hd : l.Pairwise fun a b => ¬ rectsOverlap a.rect b.rect)
    (htw : 0 ≤ t.width) (htl : 0 ≤ t.length) :
    utilNumer l ≤ t.width * t.length := by
  have hpos2 : ∀ r ∈ l.map PlacedBox.rect, 0 ≤ r.w ∧ 0 ≤ r.h := by
    intro r hr
    obtain ⟨p, hp, rfl⟩ := List.mem_map.mp hr
    obtain ⟨h1, h2⟩ := hpos p hp
    exact ⟨le_of_lt h1, le_of_lt h2⟩
  have hd2 : (l.map PlacedBox.rect).Pairwise fun a b => ¬ rectsOverlap a b :=
    (List.pairwise_map).mpr hd
  have hvol := volume_rect_list (l.map PlacedBox.rect) hpos2 hd2
  have hsub : (⋃ r ∈ l.map PlacedBox.rect, rectSet r) ⊆ truckSet t := by
    intro x hx
    simp only [Set.mem_iUnion] at hx
    obtain ⟨r, hr, hxr⟩ := hx
    obtain ⟨p, hp, rfl⟩ := List.mem_map.mp hr
    exact rectSet_subset_truck (hin p hp) hxr
  have hbound : volume (⋃ r ∈ l.map PlacedBox.rect, rectSet r) ≤ volume (truckSet t) :=
    measure_mono hsub
  have htr : volume (truckSet t) = ENNReal.ofReal ((t.width : ℝ) * (t.length : ℝ)) := by
    rw [truckSet, Measure.volume_eq_prod, Measure.prod_prod, Real.volume_Ico,
      Real.volume_Ico, sub_zero, sub_zero,
      ENNReal.ofReal_mul (by exact_mod_cast htw)]
  rw [hvol, htr] at hbound
  have hwl : (0 : ℝ) ≤ (t.width : ℝ) * (t.length : ℝ) :=
    mul_nonneg (by exact_mod_cast htw) (by exact_mod_cast htl)
  have hreal := (ENNReal.ofReal_le_ofReal_iff hwl).mp hbound
  have hcast := cast_area_sum l
  have hfinal : ((utilNumer l : ℚ) : ℝ) ≤ ((t.width * t.length : ℚ) : ℝ) := by
    rw [show ((utilNumer l : ℚ) : ℝ)
        = ((l.map PlacedBox.rect).map fun r => (r.w : ℝ) * (r.h : ℝ)).sum from hcast]
    push_cast
    exact hreal
  exact_mod_cast hfinal

theorem roundTo1_nonneg {q : ℚ} (h : 0 ≤ q) : 0 ≤ roundTo1 q := by
  unfold roundTo1
  have h0 : (0 : ℤ) ≤ round (q * 10) := by
    have := AppJs.round_q_mono (a := 0) (b := q * 10) (by nlinarith)
    simpa using this
  positivity

theorem roundTo1_le {q c : ℚ} {n : ℤ} (hn : (n : ℚ) = c * 10) (h : q ≤ c) :
    roundTo1 q ≤ c := by
  unfold roundTo1
  have h1 : round (q * 10) ≤ round (c * 10) := AppJs.round_q_mono (by nlinarith)
  have h2 : round (c * 10) = n := by rw [← hn, round_intCast]
  rw [h2] at h1
  have h3 : ((round (q * 10) : ℤ) : ℚ) ≤ (n : ℚ) := by exact_mod_cast h1
  rw [hn] at h3
  linarith

theorem roundTo1_close (q : ℚ) : |roundTo1 q - q| ≤ 1/20 := by
  unfold roundTo1
  have h1 := abs_sub_round (q * 10)
  rw [abs_sub_comm] at h1
  have h2 : ((round (q * 10) : ℤ) : ℚ) / 10 - q = (((round (q * 10) : ℤ) : ℚ) - q * 10) / 10 := by
    ring
  rw [h2, abs_div, abs_of_pos (show (0:ℚ) < 10 by norm_num)]
  linarith

theorem optimize_ok_truck {t : Truck} {reqs : List ReqEntry} {out : PackOutput}
    (h : optimize t reqs = .ok out) : 0 < t.width ∧ 0 < t.length := by
  unfold optimize at h
  by_cases h1 : 0 < t.width ∧ 0 < t.length
  · exact h1
  · rw [if_neg h1] at h
    cases h

theorem okOutput_floor_filter (t : Truck) (reqs : List ReqEntry) :
    (okOutput t reqs).placed.filter (fun p => !p.stacked) = (bestFloor t reqs).1 := by
  have hprops := bestFloor_props t reqs
  show ((bestFloor t reqs).1 ++ (stackedResult t reqs).1).filter (fun p => !p.stacked)
    = (bestFloor t reqs).1
  rw [List.filter_append]
  have h1 : (bestFloor t reqs).1.filter (fun p => !p.stacked) = (bestFloor t reqs).1 :=
    List.filter_eq_self.mpr fun p hp => by rw [hprops.2.2.2 p hp]; rfl
  have h2 : (stackedResult t reqs).1.filter (fun p => !p.stacked) = [] :=
    List.filter_eq_nil_iff.mpr fun p hp => by
      rw [stackedResult_stacked t reqs p hp]; simp
  rw [h1, h2, List.append_nil]

end TruckOpt

open TruckOpt in
/-- C4: in every accepted output the utilization percentage lies in the
interval [0, 100] and differs from 100 times the summed floor-box areas
divided by the truck floor area by at most the documented one-decimal
rounding, that is by at most 1/20.  The upper bound rests on the measure
argument that pairwise disjoint rectangles inside the truck cover at most
the truck floor area. -/
theorem optimize_utilization (t : Truck) (reqs : List ReqEntry) (out : PackOutput)
    (h : optimize t reqs = .ok out) :
    0 ≤ out.stats.utilizationPercent ∧ out.stats.utilizationPercent ≤ 100 ∧
      |out.stats.utilizationPercent -
        100 * utilNumer (out.placed.filter fun p => !p.stacked) /
          (t.width * t.length)| ≤ 1/20 := by
  have htruck := optimize_ok_truck h
  obtain rfl := optimize_ok h
  have hprops := bestFloor_props t reqs
  have hutil : (okOutput t reqs).stats.utilizationPercent
      = roundTo1 (100 * utilNumer (bestFloor t reqs).1 / (t.width * t.length)) := rfl
  have hS0 : 0 ≤ utilNumer (bestFloor t reqs).1 := by
    apply List.sum_nonneg
    intro x hx
    obtain ⟨p, hp, rfl⟩ := List.mem_map.mp hx
    obtain ⟨h1, h2⟩ := hprops.2.2.1 p hp
    positivity
  have hSle : utilNumer (bestFloor t reqs).1 ≤ t.width * t.length :=
    sum_area_le t (bestFloor t reqs).1 hprops.2.1 hprops.2.2.1 hprops.1
      (le_of_lt htruck.1) (le_of_lt htruck.2)
  have hWL : 0 < t.width * t.length := mul_pos htruck.1 htruck.2
  have hq0 : 0 ≤ 100 * utilNumer (bestFloor t reqs).1 / (t.width * t.length) := by
    apply div_nonneg (by linarith) (le_of_lt hWL)
  have hq100 : 100 * utilNumer (bestFloor t reqs).1 / (t.width * t.length) ≤ 100 := by
    rw [div_le_iff₀ hWL]
    nlinarith
  refine ⟨?_, ?_, ?_⟩
  · rw [hutil]
    exact roundTo1_nonneg hq0
  · rw [hutil]
    exact roundTo1_le (n := 1000) (by norm_num) hq100
  · rw [hutil, okOutput_floor_filter t reqs]
    exact roundTo1_close _

/-- Witness for the utilization theorem at the concrete witness request. -/
theorem optimize_utilization_witness :
    0 ≤ outW.stats.utilizationPercent ∧ outW.stats.utilizationPercent ≤ 100 ∧
      |outW.stats.utilizationPercent -
        100 * TruckOpt.utilNumer (outW.placed.filter fun p => !p.stacked) /
          (truckW.width * truckW.length)| ≤ 1/20 :=
  optimize_utilization truckW reqsW outW (by with_unfolding_all rfl)
